import Mathlib

/-!
Shallow embedding of the linc-convert pyramid construction and chunked-array
compositing engine, and proofs about it.

The definitions below are translated from:
* `src/linc_convert/modalities/psoct/stacking.py` (volume converter,
  `generate_pyramid`, `write_ome_metadata`, `niftizarr_write_header`),
* `src/linc_convert/modalities/df/multi_slice.py` (multi-slice converter),
* `src/scripts/oct_mat_to_zarr.py` (legacy OCT converter).

Machine integers are modelled as `Nat`/`Int`/`Rat`; fallible code returns
`Except`; the `while` loop of `generate_pyramid` is modelled with explicit
fuel returning `Option` (`none` = fuel exhausted before the loop finished).
-/

namespace LincConvert

/-- Modelled from the spec: `ceildiv` from `linc_convert.utils.math` (the
module is not under `src/`); ceiling division, used for sub-tile grid counts
(`ceildiv(n, max_load)`) and the multi-slice level shapes. -/
def ceildiv (a b : ℕ) : ℕ := (a + b - 1) / b

/-- Modelled from the spec: `floordiv` from `linc_convert.utils.math` (the
module is not under `src/`); floor division, used for the multi-slice
centering offsets. -/
def floordiv (a b : ℕ) : ℕ := a / b

/-- Lower bound of sub-tile `i` along one axis:
`slice(i * max_load, ...)` in `generate_pyramid` and
`start_x = i * max_load` in `multi_slice.convert`. -/
def tileLo (m i : ℕ) : ℕ := i * m

/-- Exclusive upper bound of sub-tile `i` along one axis of extent `n`:
`min((i + 1) * max_load, n)` in `generate_pyramid` and
`end_x = min((i + 1) * max_load, subdat_size[-2])` in `multi_slice.convert`. -/
def tileHi (m n i : ℕ) : ℕ := min ((i + 1) * m) n

theorem ceildiv_le_iff {m : ℕ} (hm : 0 < m) (n k : ℕ) :
    ceildiv n m ≤ k ↔ n ≤ k * m := by
  unfold ceildiv
  rw [← Nat.lt_succ_iff, Nat.div_lt_iff_lt_mul hm, Nat.succ_mul]
  omega

theorem lt_ceildiv_iff {m : ℕ} (hm : 0 < m) (n i : ℕ) :
    i < ceildiv n m ↔ i * m < n := by
  rw [← Nat.not_le, ceildiv_le_iff hm, Nat.not_le]

theorem tile_mem (m : ℕ) (hm : 0 < m) (n x : ℕ) (hx : x < n) :
    x / m < ceildiv n m ∧ tileLo m (x / m) ≤ x ∧ x < tileHi m n (x / m) := by
  have hdiv : x / m * m ≤ x := Nat.div_mul_le_self x m
  have hmod := Nat.div_add_mod x m
  have hlt : x % m < m := Nat.mod_lt x hm
  have hup : x < (x / m + 1) * m := by
    have h1 : (x / m + 1) * m = x / m * m + m := by ring
    have h2 : x / m * m = m * (x / m) := Nat.mul_comm _ _
    omega
  refine ⟨?_, hdiv, ?_⟩
  · exact (lt_ceildiv_iff hm n (x / m)).mpr (lt_of_le_of_lt hdiv hx)
  · exact lt_min hup hx

theorem tile_unique (m : ℕ) (_hm : 0 < m) (n i x : ℕ)
    (h1 : tileLo m i ≤ x) (h2 : x < tileHi m n i) : i = x / m := by
  have hup : x < (i + 1) * m := lt_of_lt_of_le h2 (min_le_left _ _)
  exact (Nat.div_eq_of_lt_le h1 hup).symm

theorem tileHi_le (m n i : ℕ) : tileHi m n i ≤ n := min_le_right _ _

/-- C5: for any positive `max_load` and any target extents, the grid of
sub-tile regions (`slice(i * max_load, min((i + 1) * max_load, n))` for
`i < ceildiv(n, max_load)` along each axis, as generated by
`generate_pyramid`, the volume compositor of `psoct.stacking.convert`, and
the multi-slice compositor of `df.multi_slice.convert`) exactly tiles the
target shape: every region stays inside the shape and every index triple of
the shape lies in exactly one region. -/
theorem subtile_grid_exact_tiling (m n1 n2 n3 x1 x2 x3 : ℕ) (hm : 0 < m)
    (h1 : x1 < n1) (h2 : x2 < n2) (h3 : x3 < n3) :
    (∀ i, tileHi m n1 i ≤ n1 ∧ tileHi m n2 i ≤ n2 ∧ tileHi m n3 i ≤ n3) ∧
    ∃! t : ℕ × ℕ × ℕ,
      (t.1 < ceildiv n1 m ∧ tileLo m t.1 ≤ x1 ∧ x1 < tileHi m n1 t.1) ∧
      (t.2.1 < ceildiv n2 m ∧ tileLo m t.2.1 ≤ x2 ∧ x2 < tileHi m n2 t.2.1) ∧
      (t.2.2 < ceildiv n3 m ∧ tileLo m t.2.2 ≤ x3 ∧ x3 < tileHi m n3 t.2.2) := by
  refine ⟨fun i => ⟨tileHi_le _ _ _, tileHi_le _ _ _, tileHi_le _ _ _⟩, ?_⟩
  obtain ⟨ha1, ha2, ha3⟩ := tile_mem m hm n1 x1 h1
  obtain ⟨hb1, hb2, hb3⟩ := tile_mem m hm n2 x2 h2
  obtain ⟨hc1, hc2, hc3⟩ := tile_mem m hm n3 x3 h3
  refine ⟨(x1 / m, x2 / m, x3 / m),
    ⟨⟨ha1, ha2, ha3⟩, ⟨hb1, hb2, hb3⟩, ⟨hc1, hc2, hc3⟩⟩, ?_⟩
  rintro ⟨ta, tb, tc⟩ ⟨⟨-, hta1, hta2⟩, ⟨-, htb1, htb2⟩, ⟨-, htc1, htc2⟩⟩
  have e1 := tile_unique m hm n1 ta x1 hta1 hta2
  have e2 := tile_unique m hm n2 tb x2 htb1 htb2
  have e3 := tile_unique m hm n3 tc x3 htc1 htc2
  simp only [Prod.mk.injEq]
  exact ⟨e1, e2, e3⟩

/-- Witness for C5 at a concrete input: `max_load = 3`, shape `(7, 5, 1)`,
index `(6, 4, 0)`. -/
theorem subtile_grid_exact_tiling_witness :
    (0 < 3 ∧ 6 < 7 ∧ 4 < 5 ∧ 0 < 1) ∧
    ((∀ i, tileHi 3 7 i ≤ 7 ∧ tileHi 3 5 i ≤ 5 ∧ tileHi 3 1 i ≤ 1) ∧
    ∃! t : ℕ × ℕ × ℕ,
      (t.1 < ceildiv 7 3 ∧ tileLo 3 t.1 ≤ 6 ∧ 6 < tileHi 3 7 t.1) ∧
      (t.2.1 < ceildiv 5 3 ∧ tileLo 3 t.2.1 ≤ 4 ∧ 4 < tileHi 3 5 t.2.1) ∧
      (t.2.2 < ceildiv 1 3 ∧ tileLo 3 t.2.2 ≤ 0 ∧ 0 < tileHi 3 1 t.2.2)) :=
  ⟨⟨by decide, by decide, by decide, by decide⟩,
    subtile_grid_exact_tiling 3 7 5 1 6 4 0 (by decide) (by decide) (by decide)
      (by decide)⟩

/-! ### Pyramid level shapes (`psoct.stacking.generate_pyramid`) -/

/-- One halving step of `generate_pyramid`:
`shape = [max(1, x // 2) for x in shape]` (spatial axes only). -/
def nextShape (s : List ℕ) : List ℕ := s.map (fun x => max 1 (x / 2))

/-- The `levels is None` stopping test of `generate_pyramid`:
`all(x <= c for x, c in zip(shape, chunk_size[-ndim:]))`. -/
def fitsChunk (s c : List ℕ) : Bool :=
  (s.zip c).all (fun p => decide (p.1 ≤ p.2))

/-- The `while True` loop of `generate_pyramid`, with explicit fuel.
`level` is the loop counter (incremented on entry), `shape` the spatial shape
of the previously created level.  Returns the list of the shapes created
after the base level, or `none` if the fuel ran out before the loop broke.
Each iteration computes `shape' = nextShape shape`, then breaks (creating
nothing) if the level budget is exhausted (`level > levels`) or, with no
budget, if `shape'` fits the chunk size; otherwise it records `shape'` as a
newly created dataset and continues. -/
def genLoop (chunk : List ℕ) (levels : Option ℕ) :
    ℕ → ℕ → List ℕ → Option (List (List ℕ))
  | 0, _, _ => none
  | fuel + 1, level, shape =>
    match levels with
    | none =>
      if fitsChunk (nextShape shape) chunk then some []
      else
        (genLoop chunk none fuel (level + 1) (nextShape shape)).map
          (nextShape shape :: ·)
    | some l =>
      if l < level + 1 then some []
      else
        (genLoop chunk (some l) fuel (level + 1) (nextShape shape)).map
          (nextShape shape :: ·)

theorem genLoop_succ_none (chunk : List ℕ) (fuel level : ℕ) (shape : List ℕ) :
    genLoop chunk none (fuel + 1) level shape =
      if fitsChunk (nextShape shape) chunk then some []
      else
        (genLoop chunk none fuel (level + 1) (nextShape shape)).map
          (nextShape shape :: ·) := rfl

theorem genLoop_succ_some (chunk : List ℕ) (l fuel level : ℕ)
    (shape : List ℕ) :
    genLoop chunk (some l) (fuel + 1) level shape =
      if l < level + 1 then some []
      else
        (genLoop chunk (some l) fuel (level + 1) (nextShape shape)).map
          (nextShape shape :: ·) := rfl

/-- `generate_pyramid`, reduced to its level-shape bookkeeping: returns
`allshapes`, the spatial shapes of all levels from the existing base level
(`omz["0"]`, spatial shape `shape0`, spatial chunk shape `chunk`) to the
coarsest created level. -/
def generate_pyramid_shapes (shape0 chunk : List ℕ) (levels : Option ℕ)
    (fuel : ℕ) : Option (List (List ℕ)) :=
  (genLoop chunk levels fuel 0 shape0).map (shape0 :: ·)

/-- The multi-slice level extent along one spatial axis
(`df.multi_slice.convert`): `shape = [ceildiv(s, 2**level) for s in
new_size[:2]]`. -/
def multiSliceLevelExtent (s level : ℕ) : ℕ := ceildiv s (2 ^ level)

theorem genLoop_chain (chunk : List ℕ) (levels : Option ℕ) :
    ∀ (fuel level : ℕ) (shape : List ℕ) (rest : List (List ℕ)),
      genLoop chunk levels fuel level shape = some rest →
      List.Chain' (fun a b => b = nextShape a) (shape :: rest)
  | 0, _, _, _, h => by simp [genLoop] at h
  | fuel + 1, level, shape, rest, h => by
    rcases levels with - | l
    · rw [genLoop_succ_none] at h
      by_cases hstop : fitsChunk (nextShape shape) chunk
      · rw [if_pos hstop] at h
        obtain rfl : rest = [] := by simpa using h.symm
        simp
      · rw [if_neg hstop] at h
        obtain ⟨rest', hrec, rfl⟩ := Option.map_eq_some'.mp h
        have ih := genLoop_chain chunk none fuel (level + 1) (nextShape shape)
          rest' hrec
        exact List.Chain'.cons rfl ih
    · rw [genLoop_succ_some] at h
      by_cases hstop : l < level + 1
      · rw [if_pos hstop] at h
        obtain rfl : rest = [] := by simpa using h.symm
        simp
      · rw [if_neg hstop] at h
        obtain ⟨rest', hrec, rfl⟩ := Option.map_eq_some'.mp h
        have ih := genLoop_chain chunk (some l) fuel (level + 1)
          (nextShape shape) rest' hrec
        exact List.Chain'.cons rfl ih

/-- C1, corrected: the volume pyramid generator declares level `n+1` with
spatial shape `max(1, shape[n] // 2)` on every spatial axis (floor division
with a floor at 1, pooling all spatial axes — the `no_pool` option is not
honored by `generate_pyramid`); the multi-slice level extents
`ceildiv(s, 2**level)` do satisfy the ceil-halving recurrence. -/
theorem pyramid_level_shape_recurrence :
    (∀ (shape0 chunk : List ℕ) (levels : Option ℕ) (fuel : ℕ)
        (shapes : List (List ℕ)),
      generate_pyramid_shapes shape0 chunk levels fuel = some shapes →
      List.Chain' (fun a b => b = nextShape a) shapes) ∧
    (∀ s level : ℕ,
      multiSliceLevelExtent s (level + 1) =
        ceildiv (multiSliceLevelExtent s level) 2) := by
  constructor
  · intro shape0 chunk levels fuel shapes h
    rw [generate_pyramid_shapes, Option.map_eq_some'] at h
    obtain ⟨rest, hrec, rfl⟩ := h
    exact genLoop_chain chunk levels fuel 0 shape0 rest hrec
  · intro s level
    have h2 : (0 : ℕ) < 2 := by decide
    have hp : (0 : ℕ) < 2 ^ level := Nat.pos_pow_of_pos level h2
    have hp1 : (0 : ℕ) < 2 ^ (level + 1) := Nat.pos_pow_of_pos (level + 1) h2
    unfold multiSliceLevelExtent
    apply Nat.le_antisymm
    · rw [ceildiv_le_iff hp1]
      have ha : ceildiv s (2 ^ level) ≤ ceildiv (ceildiv s (2 ^ level)) 2 * 2 :=
        (ceildiv_le_iff h2 _ _).mp (le_refl _)
      have hb : s ≤ ceildiv (ceildiv s (2 ^ level)) 2 * 2 * 2 ^ level :=
        (ceildiv_le_iff hp s _).mp ha
      calc s ≤ _ := hb
        _ = ceildiv (ceildiv s (2 ^ level)) 2 * 2 ^ (level + 1) := by ring
    · rw [ceildiv_le_iff h2, ceildiv_le_iff hp]
      have hb : s ≤ ceildiv s (2 ^ (level + 1)) * 2 ^ (level + 1) :=
        (ceildiv_le_iff hp1 s _).mp (le_refl _)
      calc s ≤ _ := hb
        _ = ceildiv s (2 ^ (level + 1)) * 2 * 2 ^ level := by ring

/-- Counterexample for C1 as stated: a base level of spatial shape
`(5, 5, 5)` (one explicit extra level) declares level 1 with shape
`(2, 2, 2)`, whereas ceil-division by 2 would give extent `3`. -/
theorem pyramid_level_shape_ceil_counterexample :
    generate_pyramid_shapes [5, 5, 5] [1, 1, 1] (some 1) 3 =
      some [[5, 5, 5], [2, 2, 2]] ∧ (2 : ℕ) ≠ ceildiv 5 2 := by
  constructor
  · rfl
  · decide

/-- Witness for the corrected C1 at a concrete input. -/
theorem pyramid_level_shape_recurrence_witness :
    (generate_pyramid_shapes [5, 5, 5] [1, 1, 1] (some 1) 3 =
      some [[5, 5, 5], [2, 2, 2]]) ∧
    List.Chain' (fun a b => b = nextShape a) [[5, 5, 5], [2, 2, 2]] :=
  ⟨rfl, pyramid_level_shape_recurrence.1 [5, 5, 5] [1, 1, 1] (some 1) 3 _ rfl⟩

theorem genLoop_none_stop (chunk : List ℕ) :
    ∀ (fuel level : ℕ) (shape : List ℕ) (rest : List (List ℕ)),
      genLoop chunk none fuel level shape = some rest →
      (∀ s ∈ rest, fitsChunk s chunk = false) ∧
      fitsChunk (nextShape (rest.getLastD shape)) chunk = true
  | 0, _, _, _, h => by simp [genLoop] at h
  | fuel + 1, level, shape, rest, h => by
    rw [genLoop_succ_none] at h
    by_cases hstop : fitsChunk (nextShape shape) chunk
    · rw [if_pos hstop] at h
      obtain rfl : rest = [] := by simpa using h.symm
      exact ⟨by simp, by simpa using hstop⟩
    · rw [if_neg hstop] at h
      obtain ⟨rest', hrec, rfl⟩ := Option.map_eq_some'.mp h
      obtain ⟨ihmem, ihlast⟩ := genLoop_none_stop chunk fuel (level + 1)
        (nextShape shape) rest' hrec
      refine ⟨?_, ?_⟩
      · intro s hs
        rcases List.mem_cons.mp hs with rfl | hs'
        · simpa using hstop
        · exact ihmem s hs'
      · rw [List.getLastD_cons]
        exact ihlast

/-- C2, corrected: when `generate_pyramid` is called without an explicit
level budget (`levels = None`) it stops at the first level whose computed
shape has every spatial axis at most its chunk size, but without creating
that level.  Consequently: no level exists beyond the returned list, every
created level beyond the base has some spatial extent exceeding its chunk
size, and the coarsest level present is characterized by its halved shape
(`max(1, x // 2)`) fitting the chunk size on every spatial axis — the
coarsest level itself in general does not fit the chunk size. -/
theorem pyramid_stop_condition (shape0 chunk : List ℕ) (fuel : ℕ)
    (shapes : List (List ℕ))
    (h : generate_pyramid_shapes shape0 chunk none fuel = some shapes) :
    ∃ rest, shapes = shape0 :: rest ∧
      (∀ s ∈ rest, fitsChunk s chunk = false) ∧
      fitsChunk (nextShape (rest.getLastD shape0)) chunk = true := by
  rw [generate_pyramid_shapes, Option.map_eq_some'] at h
  obtain ⟨rest, hrec, rfl⟩ := h
  exact ⟨rest, rfl, genLoop_none_stop chunk fuel 0 shape0 rest hrec⟩

/-- Witness for the corrected C2 at a concrete input. -/
theorem pyramid_stop_condition_witness :
    (generate_pyramid_shapes [300, 300, 300] [128, 128, 128] none 10 =
      some [[300, 300, 300], [150, 150, 150]]) ∧
    ∃ rest, [[300, 300, 300], [150, 150, 150]] = [300, 300, 300] :: rest ∧
      (∀ s ∈ rest, fitsChunk s [128, 128, 128] = false) ∧
      fitsChunk (nextShape (rest.getLastD [300, 300, 300])) [128, 128, 128] =
        true :=
  ⟨rfl, pyramid_stop_condition [300, 300, 300] [128, 128, 128] 10
    [[300, 300, 300], [150, 150, 150]] rfl⟩

/-- Counterexample for C2 as stated: base shape `(600, 600, 600)` with chunk
size `(128, 128, 128)` and no level budget creates levels of shapes
`(300, 300, 300)` and `(150, 150, 150)` and then stops; the coarsest level
present has spatial extent `150`, which exceeds the chunk size `128`. -/
theorem pyramid_stop_condition_counterexample :
    generate_pyramid_shapes [600, 600, 600] [128, 128, 128] none 10 =
      some [[600, 600, 600], [300, 300, 300], [150, 150, 150]] ∧
    ¬ (150 ≤ 128) := ⟨rfl, by decide⟩

/-! ### Multiscale metadata translations
(`psoct.stacking.write_ome_metadata` and the inline metadata of
`psoct.stacking.convert`) -/

/-- One entry of `pyramid_aligns` in `write_ome_metadata`: an integer is a
moving-window factor; a string starting with `e` means edge-aligned; any
other string (the documented value is `"center"`) means center-aligned. -/
inductive PyramidAlign where
  | window (factor : ℕ)
  | edge
  | center
deriving DecidableEq

/-- Per-level, per-axis scale of `write_ome_metadata`:
`(a ** n if not str else shape0/shape if e else (shape0-1)/(shape-1)) *
space_scale[i]`. -/
def levelScale (a : PyramidAlign) (n : ℕ) (shape0i shapei vx : ℚ) : ℚ :=
  (match a with
   | .window f => (f : ℚ) ^ n
   | .edge => shape0i / shapei
   | .center => (shape0i - 1) / (shapei - 1)) * vx

/-- Per-level, per-axis translation of `write_ome_metadata`:
`(a ** n - 1 if not str else shape0/shape - 1 if e else 0) * 0.5 *
space_scale[i]`. -/
def levelTranslation (a : PyramidAlign) (n : ℕ) (shape0i shapei vx : ℚ) : ℚ :=
  (match a with
   | .window f => (f : ℚ) ^ n - 1
   | .edge => shape0i / shapei - 1
   | .center => 0) * (1 / 2) * vx

/-- Per-level translation emitted inline by `psoct.stacking.convert`:
`(0 if no_pool == axis else (2 ** n - 1)) * vx[axis] * 0.5`. -/
def stackingTranslation (no_pool : Option ℕ) (axis n : ℕ) (vx : ℚ) : ℚ :=
  (if no_pool = some axis then 0 else (2 : ℚ) ^ n - 1) * vx * (1 / 2)

/-- C3, corrected: the metadata builder emits translation 0 on an axis when
the alignment policy is CENTER-aligned; when the policy is edge-aligned it
emits `(shape0/shape - 1) * voxel_size / 2`; when the policy is a window
factor `f` it emits `(f^n - 1) * voxel_size / 2` (so `0.5 * voxel_size` at
level 1 for a 2-window).  The volume converter's inline metadata emits
`(2^n - 1) * voxel_size / 2` on pooled axes and 0 on the no-pool axis. -/
theorem metadata_translation_rule :
    (∀ (f n : ℕ) (s0 s vx : ℚ),
      levelTranslation (.window f) n s0 s vx = ((f : ℚ) ^ n - 1) * vx / 2) ∧
    (∀ (n : ℕ) (s0 s vx : ℚ), levelTranslation .center n s0 s vx = 0) ∧
    (∀ (n : ℕ) (s0 s vx : ℚ),
      levelTranslation .edge n s0 s vx = (s0 / s - 1) * vx / 2) ∧
    (∀ (np : Option ℕ) (axis n : ℕ) (vx : ℚ), np ≠ some axis →
      stackingTranslation np axis n vx = ((2 : ℚ) ^ n - 1) * vx / 2) ∧
    (∀ (axis n : ℕ) (vx : ℚ), stackingTranslation (some axis) axis n vx = 0) := by
  refine ⟨?_, ?_, ?_, ?_, ?_⟩
  · intro f n s0 s vx
    show ((f : ℚ) ^ n - 1) * (1 / 2) * vx = ((f : ℚ) ^ n - 1) * vx / 2
    ring
  · intro n s0 s vx
    show (0 : ℚ) * (1 / 2) * vx = 0
    ring
  · intro n s0 s vx
    show (s0 / s - 1) * (1 / 2) * vx = (s0 / s - 1) * vx / 2
    ring
  · intro np axis n vx hnp
    unfold stackingTranslation
    rw [if_neg hnp]
    ring
  · intro axis n vx
    unfold stackingTranslation
    rw [if_pos rfl]
    ring

/-- Witness for the corrected C3 at a concrete input (a no-pool axis 0 with
pooled axis 1, level 1, unit voxel size). -/
theorem metadata_translation_rule_witness :
    (some 0 : Option ℕ) ≠ some 1 ∧
    stackingTranslation (some 0) 1 1 1 = ((2 : ℚ) ^ 1 - 1) * 1 / 2 :=
  ⟨by decide, metadata_translation_rule.2.2.2.1 (some 0) 1 1 1 (by decide)⟩

/-- Counterexample for C3 as stated: for the edge-aligned policy at level 1
with `shape0 = 4`, `shape = 2` and voxel size 1, the emitted translation is
`1/2`, not `0`. -/
theorem metadata_edge_translation_counterexample :
    levelTranslation .edge 1 4 2 1 = 1 / 2 ∧ (1 / 2 : ℚ) ≠ 0 := by
  constructor
  · show ((4 : ℚ) / 2 - 1) * (1 / 2) * 1 = 1 / 2
    norm_num
  · norm_num

/-! ### NIfTI header layout selection and magic
(`psoct.stacking.niftizarr_write_header`, `df.multi_slice.convert`,
`scripts/oct_mat_to_zarr.convert`) -/

inductive NiftiHeaderKind where
  | nifti1
  | nifti2
deriving DecidableEq

/-- Header layout selection of `niftizarr_write_header`:
`if all(x < 32768 for x in shape) or nifti_version == 1: Nifti1Header
else: Nifti2Header`. -/
def selectNiftiHeader (shape : List ℕ) (nifti_version : ℕ) : NiftiHeaderKind :=
  if (∀ x ∈ shape, x < 32768) ∨ nifti_version = 1 then .nifti1 else .nifti2

/-- C9, corrected: the larger NIfTI-2 layout is selected exactly when some
dimension exceeds 32767 AND NIfTI version 1 was not explicitly requested
(the function's `nifti_version` parameter defaults to 1 and short-circuits
the size test); with all dimensions below 32768 the smaller NIfTI-1 layout
is selected regardless of the requested version. -/
theorem header_layout_selection (shape : List ℕ) (v : ℕ) :
    selectNiftiHeader shape v = .nifti2 ↔
      (∃ x ∈ shape, 32768 ≤ x) ∧ v ≠ 1 := by
  unfold selectNiftiHeader
  by_cases h : (∀ x ∈ shape, x < 32768) ∨ v = 1
  · rw [if_pos h]
    constructor
    · intro hfalse
      exact absurd hfalse (by decide)
    · rintro ⟨⟨x, hx, hge⟩, hv⟩
      rcases h with hall | rfl
      · exact absurd (hall x hx) (by omega)
      · exact absurd rfl hv
  · rw [if_neg h]
    push_neg at h
    obtain ⟨hall, hv⟩ := h
    exact ⟨fun _ => ⟨hall, hv⟩, fun _ => rfl⟩

/-- Counterexample for C9 as stated: a shape with axis 40000 (exceeding
32767) still selects the smaller NIfTI-1 layout when NIfTI version 1 is
requested, which is the default of `niftizarr_write_header`. -/
theorem header_layout_selection_counterexample :
    selectNiftiHeader [40000, 40000, 40000] 1 = .nifti1 ∧ 32767 < 40000 := by
  constructor
  · rfl
  · decide

/-- Magic written by `df.multi_slice.convert`:
`header.structarr["magic"] = b"n+2\0"`. -/
def multiSliceHeaderMagic : String := "n+2\x00"

/-- Magic written by `scripts/oct_mat_to_zarr.convert`:
`header.structarr['magic'] = b'nz2\0'`. -/
def octMatHeaderMagic : String := "nz2\x00"

/-- Modelled from the spec: the standard magic value identifying a NIfTI-2
header as embedded in a chunked store is `n+2` with a trailing NUL. -/
def standardEmbeddedMagic : String := "n+2\x00"

/-- C8, code bug: the legacy OCT script's header-embedding path writes the
non-standard magic `nz2` (with trailing NUL) instead of the standard
embedded-NIfTI-2 magic `n+2`, which the multi-slice path does write. -/
theorem octmat_magic_deviation :
    octMatHeaderMagic = "nz2\x00" ∧
    multiSliceHeaderMagic = standardEmbeddedMagic ∧
    octMatHeaderMagic ≠ standardEmbeddedMagic := by
  refine ⟨rfl, rfl, ?_⟩
  decide

/-! ### Input validation of `psoct.stacking.convert` -/

/-- The mapped input of `psoct.stacking.convert`: whether it has a `dtype`
attribute, and its shape. -/
structure MatInput where
  hasDtype : Bool
  shape : List ℕ

/-- The array-dataset creation sequence of `psoct.stacking.convert`:
the two input checks (`hasattr(inp, "dtype")`, `len(inp.shape) >= 3`) run
before `omz.create_dataset(str(0), ...)` and the pyramid levels; on failure
an exception propagates and no dataset is created. -/
def stackingConvertDatasets (inp : MatInput) (nblevels : ℕ) :
    Except String (List String) :=
  if inp.hasDtype = false then
    .error "Input is not a numpy array. This is likely unexpected"
  else if inp.shape.length < 3 then
    .error "Input array is not 3d"
  else
    .ok ((List.range nblevels).map (fun level => toString level))

/-- C10: if the mapped input lacks a dtype attribute or has rank below 3,
`psoct.stacking.convert` raises before creating any array dataset, so no
pyramid level is ever created for such an input. -/
theorem stacking_rank_check (inp : MatInput) (nblevels : ℕ)
    (h : inp.hasDtype = false ∨ inp.shape.length < 3) :
    ∃ e, stackingConvertDatasets inp nblevels = .error e := by
  unfold stackingConvertDatasets
  rcases h with h | h
  · rw [if_pos h]
    exact ⟨_, rfl⟩
  · by_cases hd : inp.hasDtype = false
    · rw [if_pos hd]
      exact ⟨_, rfl⟩
    · rw [if_neg hd, if_pos h]
      exact ⟨_, rfl⟩

/-- Witness for C10 at a concrete input (a 2-dimensional array). -/
theorem stacking_rank_check_witness :
    ((MatInput.mk true [4, 4]).hasDtype = false ∨
      (MatInput.mk true [4, 4]).shape.length < 3) ∧
    ∃ e, stackingConvertDatasets ⟨true, [4, 4]⟩ 5 = .error e :=
  ⟨Or.inr (by decide), stacking_rank_check ⟨true, [4, 4]⟩ 5 (Or.inr (by decide))⟩

/-! ### Multi-slice input scan (`df.multi_slice.convert`)

Before any write, `convert` scans the inputs:
`nblevel, has_channel, dtype_jp2 = float("inf"), float("inf"), ""` followed
by, for each source, `nblevel = min(nblevel, num_res)`,
`has_channel = min(has_channel, jp2.ndim - 2)`,
`dtype_jp2 = np.dtype(jp2.dtype).str`.  The infinite starting values are
modelled as `none`. -/

/-- One JPEG2000 input source, as observed by the scan loop. -/
structure Jp2Source where
  num_res : ℕ
  ndim : ℕ
  dtypeStr : String

/-- One iteration of the input scan loop. -/
def scanStep (st : Option ℕ × Option ℤ × String) (s : Jp2Source) :
    Option ℕ × Option ℤ × String :=
  (some (match st.1 with
         | none => s.num_res
         | some v => min v s.num_res),
   some (match st.2.1 with
         | none => (s.ndim : ℤ) - 2
         | some v => min v ((s.ndim : ℤ) - 2)),
   s.dtypeStr)

/-- The full input scan of `df.multi_slice.convert`, producing
`(nblevel, has_channel, dtype_jp2)`. -/
def scanSources (inp : List Jp2Source) : Option ℕ × Option ℤ × String :=
  inp.foldl scanStep (none, none, "")

/-- The pre-write configuration phase of `df.multi_slice.convert`: the scan
always succeeds — the source contains no homogeneity validation between the
scan and the first store write. -/
def multiSlicePrecheck (inp : List Jp2Source) :
    Except String (Option ℕ × Option ℤ × String) :=
  .ok (scanSources inp)

/-- Minimum accumulation on `Option ℤ`, the shape of the `has_channel`
component of `scanStep`. -/
def omin (acc : Option ℤ) (z : ℤ) : Option ℤ :=
  some (match acc with
        | none => z
        | some v => min v z)

theorem scan_dtype_eq (inp : List Jp2Source) :
    ∀ st : Option ℕ × Option ℤ × String,
      (inp.foldl scanStep st).2.2 =
        (inp.map Jp2Source.dtypeStr).getLastD st.2.2 := by
  induction inp with
  | nil => intro st; rfl
  | cons s rest ih =>
    intro st
    rw [List.foldl_cons, ih, List.map_cons, List.getLastD_cons]
    rfl

theorem scan_channel_eq (inp : List Jp2Source) :
    ∀ st : Option ℕ × Option ℤ × String,
      (inp.foldl scanStep st).2.1 =
        inp.foldl (fun a s => omin a ((s.ndim : ℤ) - 2)) st.2.1 := by
  induction inp with
  | nil => intro st; rfl
  | cons s rest ih =>
    intro st
    rw [List.foldl_cons, ih, List.foldl_cons]
    rcases st with ⟨a, b, c⟩
    rcases b with - | v <;> rfl

theorem ominFold_some (l : List ℤ) :
    ∀ a : ℤ, ∃ m, l.foldl omin (some a) = some m ∧ m ≤ a ∧
      (∀ z ∈ l, m ≤ z) ∧ (m = a ∨ m ∈ l) := by
  induction l with
  | nil => intro a; exact ⟨a, rfl, le_refl a, by simp, Or.inl rfl⟩
  | cons z rest ih =>
    intro a
    obtain ⟨m, hm, hle, hall, hmem⟩ := ih (min a z)
    refine ⟨m, hm, le_trans hle (min_le_left a z), ?_, ?_⟩
    · intro w hw
      rcases List.mem_cons.mp hw with rfl | hw'
      · exact le_trans hle (min_le_right a w)
      · exact hall w hw'
    · rcases hmem with rfl | hmem'
      · rcases le_total a z with haz | hza
        · exact Or.inl (min_eq_left haz)
        · refine Or.inr ?_
          rw [min_eq_right hza]
          exact List.mem_cons_self z rest
      · exact Or.inr (List.mem_cons_of_mem z hmem')

theorem ominFold_from_none (l : List ℤ) (hne : l ≠ []) :
    ∃ m, l.foldl omin none = some m ∧ (∀ z ∈ l, m ≤ z) ∧ m ∈ l := by
  rcases l with - | ⟨z, rest⟩
  · exact absurd rfl hne
  · rw [List.foldl_cons, show omin none z = some z from rfl]
    obtain ⟨m, hm, hle, hall, hmem⟩ := ominFold_some rest z
    refine ⟨m, hm, ?_, ?_⟩
    · intro w hw
      rcases List.mem_cons.mp hw with rfl | hw'
      · exact hle
      · exact hall w hw'
    · rcases hmem with rfl | hmem'
      · exact List.mem_cons_self m rest
      · exact List.mem_cons_of_mem z hmem'

/-- C6, corrected: the multi-slice converter performs no homogeneity
validation before writing.  The pre-write scan always succeeds; it records
the MINIMUM channel count (`min(has_channel, ndim - 2)`) across sources and
the dtype of the LAST source, silently accepting heterogeneous inputs. -/
theorem multislice_no_homogeneity_check (inp : List Jp2Source) :
    (multiSlicePrecheck inp).isOk = true ∧
    (scanSources inp).2.2 = (inp.map Jp2Source.dtypeStr).getLastD "" ∧
    (inp ≠ [] →
      ∃ hc : ℤ, (scanSources inp).2.1 = some hc ∧
        (∀ s ∈ inp, hc ≤ (s.ndim : ℤ) - 2) ∧
        (∃ s ∈ inp, hc = (s.ndim : ℤ) - 2)) := by
  refine ⟨rfl, scan_dtype_eq inp _, ?_⟩
  intro hne
  rw [scanSources, scan_channel_eq]
  have hmap := List.foldl_map (fun t : Jp2Source => (t.ndim : ℤ) - 2) omin inp
    (none : Option ℤ)
  rw [← hmap]
  obtain ⟨m, hm, hall, hmem⟩ :=
    ominFold_from_none (inp.map fun t => (t.ndim : ℤ) - 2)
      (fun h => hne (List.map_eq_nil_iff.mp h))
  refine ⟨m, hm, ?_, ?_⟩
  · intro t ht
    exact hall _ (List.mem_map_of_mem _ ht)
  · obtain ⟨t, ht, hft⟩ := List.mem_map.mp hmem
    exact ⟨t, ht, hft.symm⟩

/-- Counterexample for C6 as stated: two sources with different channel
counts (`ndim` 3 vs 2) and different dtypes scan successfully — no
configuration error is reported before writing. -/
theorem multislice_no_homogeneity_check_counterexample :
    (multiSlicePrecheck [⟨6, 3, "|u1"⟩, ⟨6, 2, "|i2"⟩]).isOk = true ∧
    scanSources [⟨6, 3, "|u1"⟩, ⟨6, 2, "|i2"⟩] = (some 6, some 0, "|i2") ∧
    (3 : ℕ) ≠ 2 ∧ "|u1" ≠ "|i2" := by
  refine ⟨rfl, ?_, by decide, by decide⟩
  rfl

/-- Witness for the corrected C6 at a concrete input. -/
theorem multislice_no_homogeneity_check_witness :
    (([⟨6, 3, "|u1"⟩, ⟨6, 2, "|i2"⟩] : List Jp2Source) ≠ []) ∧
    ∃ hc : ℤ,
      (scanSources [⟨6, 3, "|u1"⟩, ⟨6, 2, "|i2"⟩]).2.1 = some hc ∧
      (∀ s ∈ ([⟨6, 3, "|u1"⟩, ⟨6, 2, "|i2"⟩] : List Jp2Source),
        hc ≤ (s.ndim : ℤ) - 2) ∧
      (∃ s ∈ ([⟨6, 3, "|u1"⟩, ⟨6, 2, "|i2"⟩] : List Jp2Source),
        hc = (s.ndim : ℤ) - 2) :=
  ⟨List.cons_ne_nil _ _,
    (multislice_no_homogeneity_check _).2.2 (List.cons_ne_nil _ _)⟩

/-! ### Windowed reducer (inner block of `generate_pyramid`)

The code crops any trailing odd voxel along each spatial axis
(`crop = [0 if x == 1 else x % 2 ...]`), reshapes each axis of extent `n`
into `(max(n // 2, 1), min(n, 2))`, gathers the window axes into a trailing
patch axis, applies `np.mean`/`np.median` along it, and casts the result
back to the input dtype (`dat = dat.astype(dtype)`).  Blocks are modelled as
nested lists (planes, then rows, then columns); leading batch axes are the
outer list of `reduceBatch`. -/

inductive ReduceMode where
  | mean
  | median
deriving DecidableEq

/-- The `astype` cast back to an integer dtype: truncation toward zero. -/
def npTrunc (q : ℚ) : ℤ := q.num.tdiv (q.den : ℤ)

/-- `np.mean` along the flattened patch axis. -/
def npMean (l : List ℤ) : ℚ := (l.sum : ℚ) / (l.length : ℚ)

/-- `np.median` along the flattened patch axis: middle of the sorted
values, or the mean of the two middle values for an even count. -/
def npMedian (l : List ℤ) : ℚ :=
  if l.length % 2 = 1 then
    (((l.mergeSort (fun a b => decide (a ≤ b))).getD (l.length / 2) 0 : ℤ) : ℚ)
  else
    ((((l.mergeSort (fun a b => decide (a ≤ b))).getD (l.length / 2 - 1) 0 : ℤ) : ℚ) +
      (((l.mergeSort (fun a b => decide (a ≤ b))).getD (l.length / 2) 0 : ℤ) : ℚ)) / 2

/-- `func(dat, axis=-1)` followed by the cast back to the input dtype. -/
def reduceWindow (mode : ReduceMode) (l : List ℤ) : ℤ :=
  npTrunc (match mode with
           | .mean => npMean l
           | .median => npMedian l)

/-- Grouping of one axis into contiguous pairs (the `(n // 2, 2)` part of
the windowed reshape). -/
def chunkPairs {α : Type*} : List α → List (List α)
  | [] => []
  | [a] => [[a]]
  | a :: b :: rest => [a, b] :: chunkPairs rest

/-- Windows along one axis: an axis of extent 1 is kept whole (`min(n, 2)`
window of size 1); otherwise the trailing odd element is cropped and the
remainder grouped into pairs. -/
def windows1 {α : Type*} (l : List α) : List (List α) :=
  if l.length = 1 then [l] else chunkPairs (l.take (2 * (l.length / 2)))

/-- Positionwise concatenation of window contents, used to merge the window
contributions of paired rows (resp. planes). -/
def zipConcat {α : Type*} (a b : List (List α)) : List (List α) :=
  List.zipWith (· ++ ·) a b

def combineCols {α : Type*} : List (List (List α)) → List (List α)
  | [] => []
  | w :: ws => ws.foldl zipConcat w

def zipConcat2 {α : Type*} (a b : List (List (List α))) :
    List (List (List α)) :=
  List.zipWith zipConcat a b

def combinePlanes {α : Type*} : List (List (List (List α))) → List (List (List α))
  | [] => []
  | w :: ws => ws.foldl zipConcat2 w

/-- 2-dimensional window gathering over a plane (rows × columns). -/
def windows2 {α : Type*} (plane : List (List α)) : List (List (List α)) :=
  (windows1 plane).map (fun rows => combineCols (rows.map windows1))

/-- 3-dimensional window gathering over a block (planes × rows × columns):
each output position holds the flattened 2×2×2 (or smaller, on axes of
extent 1) patch, in the same order as the numpy transpose/reshape. -/
def windows3 {α : Type*} (block : List (List (List α))) :
    List (List (List (List α))) :=
  (windows1 block).map (fun planes => combinePlanes (planes.map windows2))

/-- The windowed reduction of one block: gather patches, reduce each along
the patch axis, cast back. -/
def reduceBlock (mode : ReduceMode) (block : List (List (List ℤ))) :
    List (List (List ℤ)) :=
  (windows3 block).map (List.map (List.map (reduceWindow mode)))

/-- The reduction applied under the leading batch axes. -/
def reduceBatch (mode : ReduceMode) (batch : List (List (List (List ℤ)))) :
    List (List (List (List ℤ))) :=
  batch.map (reduceBlock mode)

/-- `b` is a well-formed block of `p` planes × `r` rows × `c` columns. -/
def dims3 {α : Type*} (b : List (List (List α))) (p r c : ℕ) : Prop :=
  b.length = p ∧ ∀ pl ∈ b, pl.length = r ∧ ∀ row ∈ pl, row.length = c

instance decidableDims3 {α : Type*} (b : List (List (List α))) (p r c : ℕ) :
    Decidable (dims3 b p r c) := by
  unfold dims3
  exact inferInstance

theorem npTrunc_eq_zero (q : ℚ) (h0 : 0 ≤ q) (h1 : q < 1) : npTrunc q = 0 := by
  unfold npTrunc
  exact Int.tdiv_eq_zero_of_lt (Rat.num_nonneg.mpr h0)
    (by exact_mod_cast Rat.lt_one_iff_num_lt_denom.mp h1)

theorem chunkPairs_length {α : Type*} :
    ∀ l : List α, (chunkPairs l).length = (l.length + 1) / 2
  | [] => by simp [chunkPairs]
  | [_] => by simp [chunkPairs]
  | a :: b :: rest => by
    simp only [chunkPairs, List.length_cons]
    rw [chunkPairs_length rest]
    omega

theorem chunkPairs_sub {α : Type*} :
    ∀ (l : List α) (w : List α), w ∈ chunkPairs l → ∀ x ∈ w, x ∈ l
  | [], w, hw => by simp [chunkPairs] at hw
  | [a], w, hw => by
    simp only [chunkPairs, List.mem_singleton] at hw
    subst hw
    intro x hx
    exact hx
  | a :: b :: rest, w, hw => by
    simp only [chunkPairs] at hw
    rcases List.mem_cons.mp hw with rfl | hw'
    · intro x hx
      rcases List.mem_cons.mp hx with rfl | hx'
      · exact List.mem_cons_self _ _
      · rcases List.mem_cons.mp hx' with rfl | hx''
        · exact List.mem_cons_of_mem _ (List.mem_cons_self _ _)
        · simp at hx''
    · intro x hx
      exact List.mem_cons_of_mem _
        (List.mem_cons_of_mem _ (chunkPairs_sub rest w hw' x hx))

theorem chunkPairs_ne_nil {α : Type*} :
    ∀ (l : List α) (w : List α), w ∈ chunkPairs l → w ≠ []
  | [], w, hw => by simp [chunkPairs] at hw
  | [a], w, hw => by
    simp only [chunkPairs, List.mem_singleton] at hw
    subst hw
    simp
  | a :: b :: rest, w, hw => by
    simp only [chunkPairs] at hw
    rcases List.mem_cons.mp hw with rfl | hw'
    · simp
    · exact chunkPairs_ne_nil rest w hw'

theorem windows1_length {α : Type*} (l : List α) (h : l.length ≠ 0) :
    (windows1 l).length = max 1 (l.length / 2) := by
  unfold windows1
  by_cases h1 : l.length = 1
  · rw [if_pos h1, h1]
    rfl
  · rw [if_neg h1, chunkPairs_length, List.length_take]
    have h3 := Nat.div_mul_le_self l.length 2
    have hcomm : 2 * (l.length / 2) = l.length / 2 * 2 := Nat.mul_comm _ _
    rw [min_eq_left (by omega)]
    have hge : 2 ≤ l.length := by omega
    have hk : 1 ≤ l.length / 2 := by
      rw [Nat.le_div_iff_mul_le (by norm_num)]
      omega
    rw [Nat.max_eq_right hk]
    omega

theorem windows1_mem_ne_nil {α : Type*} (l : List α) (h : l.length ≠ 0) :
    ∀ w ∈ windows1 l, w ≠ [] := by
  unfold windows1
  by_cases h1 : l.length = 1
  · rw [if_pos h1]
    intro w hw
    rw [List.mem_singleton] at hw
    subst hw
    intro hnil
    rw [hnil] at h1
    simp at h1
  · rw [if_neg h1]
    intro w hw
    exact chunkPairs_ne_nil _ w hw

theorem windows1_mem_sub {α : Type*} (l : List α) :
    ∀ w ∈ windows1 l, ∀ x ∈ w, x ∈ l := by
  unfold windows1
  by_cases h1 : l.length = 1
  · rw [if_pos h1]
    intro w hw x hx
    rw [List.mem_singleton] at hw
    subst hw
    exact hx
  · rw [if_neg h1]
    intro w hw x hx
    exact List.take_subset _ _ (chunkPairs_sub _ w hw x hx)

theorem mem_zipWith {α β γ : Type*} {f : α → β → γ} :
    ∀ {a : List α} {b : List β} {w : γ}, w ∈ List.zipWith f a b →
      ∃ x ∈ a, ∃ y ∈ b, w = f x y := by
  intro a
  induction a with
  | nil => intro b w hw; simp at hw
  | cons x a ih =>
    intro b w hw
    rcases b with - | ⟨y, b⟩
    · simp at hw
    · rw [List.zipWith_cons_cons] at hw
      rcases List.mem_cons.mp hw with rfl | hw'
      · exact ⟨x, List.mem_cons_self _ _, y, List.mem_cons_self _ _, rfl⟩
      · obtain ⟨x', hx', y', hy', rfl⟩ := ih hw'
        exact ⟨x', List.mem_cons_of_mem _ hx', y',
          List.mem_cons_of_mem _ hy', rfl⟩

theorem foldl_zipConcat_length {α : Type*} :
    ∀ (ws : List (List (List α))) (acc : List (List α)) (L : ℕ),
      acc.length = L → (∀ u ∈ ws, u.length = L) →
      (ws.foldl zipConcat acc).length = L
  | [], _, _, hacc, _ => hacc
  | u :: ws, acc, L, hacc, hws => by
    rw [List.foldl_cons]
    apply foldl_zipConcat_length ws (zipConcat acc u) L
    · rw [zipConcat, List.length_zipWith, hacc,
        hws u (List.mem_cons_self u ws)]
      exact min_self L
    · intro v hv
      exact hws v (List.mem_cons_of_mem u hv)

theorem combineCols_length {α : Type*} (ws : List (List (List α))) (L : ℕ)
    (hne : ws ≠ []) (h : ∀ u ∈ ws, u.length = L) :
    (combineCols ws).length = L := by
  rcases ws with - | ⟨w, ws⟩
  · exact absurd rfl hne
  · show (ws.foldl zipConcat w).length = L
    exact foldl_zipConcat_length ws w L (h w (List.mem_cons_self w ws))
      (fun u hu => h u (List.mem_cons_of_mem w hu))

theorem foldl_zipConcat2_spec {α : Type*} :
    ∀ (ws : List (List (List (List α)))) (acc : List (List (List α)))
      (L1 L2 : ℕ),
      acc.length = L1 → (∀ g ∈ acc, g.length = L2) →
      (∀ u ∈ ws, u.length = L1 ∧ ∀ g ∈ u, g.length = L2) →
      (ws.foldl zipConcat2 acc).length = L1 ∧
        ∀ g ∈ ws.foldl zipConcat2 acc, g.length = L2
  | [], _, _, _, h1, h2, _ => ⟨h1, h2⟩
  | u :: ws, acc, L1, L2, h1, h2, hws => by
    rw [List.foldl_cons]
    obtain ⟨hu1, hu2⟩ := hws u (List.mem_cons_self u ws)
    apply foldl_zipConcat2_spec ws (zipConcat2 acc u) L1 L2
    · rw [zipConcat2, List.length_zipWith, h1, hu1]
      exact min_self L1
    · intro g hg
      rw [zipConcat2] at hg
      obtain ⟨x, hx, y, hy, rfl⟩ := mem_zipWith hg
      rw [zipConcat, List.length_zipWith, h2 x hx, hu2 y hy]
      exact min_self L2
    · intro v hv
      exact hws v (List.mem_cons_of_mem u hv)

theorem combinePlanes_spec {α : Type*} (ws : List (List (List (List α))))
    (L1 L2 : ℕ) (hne : ws ≠ [])
    (h : ∀ u ∈ ws, u.length = L1 ∧ ∀ g ∈ u, g.length = L2) :
    (combinePlanes ws).length = L1 ∧
      ∀ g ∈ combinePlanes ws, g.length = L2 := by
  rcases ws with - | ⟨w, ws⟩
  · exact absurd rfl hne
  · show (ws.foldl zipConcat2 w).length = L1 ∧
      ∀ g ∈ ws.foldl zipConcat2 w, g.length = L2
    obtain ⟨hw1, hw2⟩ := h w (List.mem_cons_self w ws)
    exact foldl_zipConcat2_spec ws w L1 L2 hw1 hw2
      (fun u hu => h u (List.mem_cons_of_mem w hu))

theorem windows2_spec {α : Type*} (plane : List (List α)) (r c : ℕ)
    (hr : r ≠ 0) (hc : c ≠ 0) (hlen : plane.length = r)
    (hrows : ∀ row ∈ plane, row.length = c) :
    (windows2 plane).length = max 1 (r / 2) ∧
      ∀ g ∈ windows2 plane, g.length = max 1 (c / 2) := by
  constructor
  · rw [windows2, List.length_map,
      windows1_length plane (by rw [hlen]; exact hr), hlen]
  · intro g hg
    rw [windows2] at hg
    obtain ⟨rows, hrowsmem, rfl⟩ := List.mem_map.mp hg
    apply combineCols_length
    · intro hnil
      exact windows1_mem_ne_nil plane (by rw [hlen]; exact hr) rows hrowsmem
        (List.map_eq_nil_iff.mp hnil)
    · intro u hu
      obtain ⟨row, hrow, rfl⟩ := List.mem_map.mp hu
      have hrowlen : row.length = c :=
        hrows row (windows1_mem_sub plane rows hrowsmem row hrow)
      rw [windows1_length row (by rw [hrowlen]; exact hc), hrowlen]

theorem windows3_spec {α : Type*} (block : List (List (List α))) (p r c : ℕ)
    (hp : p ≠ 0) (hr : r ≠ 0) (hc : c ≠ 0) (hd : dims3 block p r c) :
    (windows3 block).length = max 1 (p / 2) ∧
      ∀ pl ∈ windows3 block, pl.length = max 1 (r / 2) ∧
        ∀ g ∈ pl, g.length = max 1 (c / 2) := by
  obtain ⟨hlen, hplanes⟩ := hd
  constructor
  · rw [windows3, List.length_map,
      windows1_length block (by rw [hlen]; exact hp), hlen]
  · intro pl hpl
    rw [windows3] at hpl
    obtain ⟨planes, hplmem, rfl⟩ := List.mem_map.mp hpl
    apply combinePlanes_spec
    · intro hnil
      exact windows1_mem_ne_nil block (by rw [hlen]; exact hp) planes hplmem
        (List.map_eq_nil_iff.mp hnil)
    · intro u hu
      obtain ⟨plane, hplane, rfl⟩ := List.mem_map.mp hu
      obtain ⟨hplen, hprows⟩ :=
        hplanes plane (windows1_mem_sub block planes hplmem plane hplane)
      exact windows2_spec plane r c hr hc hplen hprows

/-- C4: for input blocks of `p × r × c` spatial extent (all positive), the
windowed reduction (mean or median) produces blocks of shape
`max(1, p // 2) × max(1, r // 2) × max(1, c // 2)`, leaves the leading
batch axes unchanged, and (being `npTrunc ∘ npMean/npMedian`, the modelled
`astype` cast-back) re-quantizes the reduced values to the input integer
type — e.g. the mean 1/2 of the integer block `[0, 1]` is cast back to the
integer 0. -/
theorem windowed_reducer_shape (mode : ReduceMode)
    (batch : List (List (List (List ℤ)))) (p r c : ℕ)
    (hp : p ≠ 0) (hr : r ≠ 0) (hc : c ≠ 0)
    (hb : ∀ b ∈ batch, dims3 b p r c) :
    (reduceBatch mode batch).length = batch.length ∧
    (∀ b' ∈ reduceBatch mode batch,
      dims3 b' (max 1 (p / 2)) (max 1 (r / 2)) (max 1 (c / 2))) ∧
    reduceBlock ReduceMode.mean [[[0, 1]]] = [[[0]]] := by
  refine ⟨List.length_map _ _, ?_, ?_⟩
  case refine_2 =>
    have hw : reduceBlock ReduceMode.mean [[[0, 1]]] =
        [[[reduceWindow ReduceMode.mean [0, 1]]]] := rfl
    have hm2 : reduceWindow ReduceMode.mean [0, 1] = 0 := by
      show npTrunc (npMean [0, 1]) = 0
      apply npTrunc_eq_zero
      · norm_num [npMean]
      · norm_num [npMean]
    rw [hw, hm2]
  intro b' hb'
  obtain ⟨b, hbmem, rfl⟩ := List.mem_map.mp hb'
  obtain ⟨h1, h2⟩ := windows3_spec b p r c hp hr hc (hb b hbmem)
  refine ⟨?_, ?_⟩
  · rw [reduceBlock, List.length_map, h1]
  · intro pl hpl
    rw [reduceBlock] at hpl
    obtain ⟨pl0, hpl0, rfl⟩ := List.mem_map.mp hpl
    obtain ⟨hl1, hl2⟩ := h2 pl0 hpl0
    refine ⟨?_, ?_⟩
    · rw [List.length_map, hl1]
    · intro row hrow
      obtain ⟨row0, hrow0, rfl⟩ := List.mem_map.mp hrow
      rw [List.length_map, hl2 row0 hrow0]

/-- A concrete 2 × 2 × 2 integer block. -/
def sampleBlock : List (List (List ℤ)) :=
  [[[1, 2], [3, 4]], [[5, 6], [7, 8]]]

/-- Witness for C4 at a concrete input. -/
theorem windowed_reducer_shape_witness :
    ((2 : ℕ) ≠ 0 ∧ (∀ b ∈ [sampleBlock], dims3 b 2 2 2)) ∧
    ((reduceBatch ReduceMode.median [sampleBlock]).length =
        [sampleBlock].length ∧
      (∀ b' ∈ reduceBatch ReduceMode.median [sampleBlock],
        dims3 b' (max 1 (2 / 2)) (max 1 (2 / 2)) (max 1 (2 / 2))) ∧
      reduceBlock ReduceMode.mean [[[0, 1]]] = [[[0]]]) :=
  ⟨⟨by decide, by decide⟩,
    windowed_reducer_shape ReduceMode.median [sampleBlock] 2 2 2
      (by decide) (by decide) (by decide) (by decide)⟩

/-! ### Multi-slice level-0 compositing (`df.multi_slice.convert`)

The level-0 canvas spatial extents are the per-axis maxima over the input
slices; each slice is written per channel (`for channel in range(3)`) at the
centering offset `floordiv(shape - subdat_size, 2)`, either as one region
write (when both slice extents are below `max_load`, or `max_load is None`)
or as a grid of `max_load`-bounded sub-tile writes; the store array is
created with `fill_value = 0`. -/

/-- One input slice: level-0 height/width and pixel data indexed by
channel, row, column. -/
structure SliceSrc where
  h : ℕ
  w : ℕ
  data : ℕ → ℕ → ℕ → ℤ

instance : Inhabited SliceSrc := ⟨⟨0, 0, fun _ _ _ => 0⟩⟩

/-- Level-0 canvas height: `if jp2.shape[0] > new_height: new_height = ...`
folded over the inputs starting from 0. -/
def canvasH (slices : List SliceSrc) : ℕ :=
  slices.foldl (fun acc sl => if acc < sl.h then sl.h else acc) 0

/-- Level-0 canvas width, folded the same way. -/
def canvasW (slices : List SliceSrc) : ℕ :=
  slices.foldl (fun acc sl => if acc < sl.w then sl.w else acc) 0

/-- One rectangular region write
`array[ch, idx, x : x + hh, y : y + ww] = src`. -/
structure RegionWrite where
  ch : ℕ
  idx : ℕ
  x : ℕ
  y : ℕ
  hh : ℕ
  ww : ℕ
  src : ℕ → ℕ → ℤ

/-- Whether the write covers canvas position `(c, s, p, q)`. -/
def covers (wr : RegionWrite) (c s p q : ℕ) : Prop :=
  c = wr.ch ∧ s = wr.idx ∧
  wr.x ≤ p ∧ p < wr.x + wr.hh ∧ wr.y ≤ q ∧ q < wr.y + wr.ww

instance decidableCovers (wr : RegionWrite) (c s p q : ℕ) :
    Decidable (covers wr c s p q) := by
  unfold covers
  exact inferInstance

/-- Apply one region write to the canvas. -/
def applyWrite (arr : ℕ → ℕ → ℕ → ℕ → ℤ) (wr : RegionWrite) :
    ℕ → ℕ → ℕ → ℕ → ℤ :=
  fun c s p q =>
    if covers wr c s p q then wr.src (p - wr.x) (q - wr.y) else arr c s p q

/-- Apply a list of region writes in order. -/
def applyWrites (arr : ℕ → ℕ → ℕ → ℕ → ℤ) (ws : List RegionWrite) :
    ℕ → ℕ → ℕ → ℕ → ℤ :=
  ws.foldl applyWrite arr

/-- One sub-tile write of the bounded path:
`array[ch, idx, x + start_x : x + end_x, y + start_y : y + end_y] =
subdat[ch, start_x : end_x, start_y : end_y]` with
`start_x = i * max_load`, `end_x = min((i + 1) * max_load, h)`. -/
def tileWrite (m ch idx x y hh ww : ℕ) (src : ℕ → ℕ → ℤ) (i j : ℕ) :
    RegionWrite :=
  ⟨ch, idx, x + i * m, y + j * m,
    min ((i + 1) * m) hh - i * m, min ((j + 1) * m) ww - j * m,
    fun p q => src (i * m + p) (j * m + q)⟩

/-- The sub-tile grid of writes: `for i in range(ni): for j in range(nj)`
with `ni = ceildiv(h, max_load)`, `nj = ceildiv(w, max_load)`. -/
def tileWrites (m ch idx x y hh ww : ℕ) (src : ℕ → ℕ → ℤ) :
    List RegionWrite :=
  (List.range (ceildiv hh m)).flatMap fun i =>
    (List.range (ceildiv ww m)).map fun j =>
      tileWrite m ch idx x y hh ww src i j

/-- The writes performed for one slice and one channel: the direct path if
`max_load is None or (h < max_load and w < max_load)`, else the sub-tiled
path, at the centering offset `floordiv(canvas - slice, 2)`. -/
def sliceChannelWrites (m : Option ℕ) (hcan wcan idx : ℕ) (sl : SliceSrc)
    (ch : ℕ) : List RegionWrite :=
  match m with
  | none => [⟨ch, idx, floordiv (hcan - sl.h) 2, floordiv (wcan - sl.w) 2,
      sl.h, sl.w, sl.data ch⟩]
  | some mv =>
    if sl.h < mv ∧ sl.w < mv then
      [⟨ch, idx, floordiv (hcan - sl.h) 2, floordiv (wcan - sl.w) 2,
        sl.h, sl.w, sl.data ch⟩]
    else
      tileWrites mv ch idx (floordiv (hcan - sl.h) 2)
        (floordiv (wcan - sl.w) 2) sl.h sl.w (sl.data ch)

/-- The writes for one slice: `for channel in range(3)`. -/
def sliceWrites (m : Option ℕ) (hcan wcan idx : ℕ) (sl : SliceSrc) :
    List RegionWrite :=
  (List.range 3).flatMap (sliceChannelWrites m hcan wcan idx sl)

/-- All level-0 writes: `for idx, inp1 in enumerate(inp)`. -/
def level0Writes (m : Option ℕ) (slices : List SliceSrc) :
    List RegionWrite :=
  (List.range slices.length).flatMap fun idx =>
    sliceWrites m (canvasH slices) (canvasW slices) idx
      (slices.getD idx default)

/-- The composited level-0 canvas: all writes applied over the store's
fill value 0. -/
def buildLevel0 (m : Option ℕ) (slices : List SliceSrc) :
    ℕ → ℕ → ℕ → ℕ → ℤ :=
  applyWrites (fun _ _ _ _ => 0) (level0Writes m slices)

theorem foldMax_le (f : SliceSrc → ℕ) :
    ∀ (l : List SliceSrc) (acc : ℕ),
      acc ≤ l.foldl (fun a sl => if a < f sl then f sl else a) acc ∧
      ∀ sl ∈ l, f sl ≤ l.foldl (fun a sl => if a < f sl then f sl else a) acc
  | [], acc => ⟨le_refl _, by simp⟩
  | sl :: rest, acc => by
    obtain ⟨h1, h2⟩ := foldMax_le f rest (if acc < f sl then f sl else acc)
    rw [List.foldl_cons]
    refine ⟨le_trans (by split <;> omega) h1, ?_⟩
    intro t ht
    rcases List.mem_cons.mp ht with rfl | ht'
    · exact le_trans (by split <;> omega) h1
    · exact h2 t ht'

theorem foldMax_mem (f : SliceSrc → ℕ) :
    ∀ (l : List SliceSrc) (acc : ℕ),
      l.foldl (fun a sl => if a < f sl then f sl else a) acc = acc ∨
      ∃ sl ∈ l, l.foldl (fun a sl => if a < f sl then f sl else a) acc = f sl
  | [], _ => Or.inl rfl
  | sl :: rest, acc => by
    rw [List.foldl_cons]
    rcases foldMax_mem f rest (if acc < f sl then f sl else acc) with
      h | ⟨t, ht, h⟩
    · by_cases hc : acc < f sl
      · refine Or.inr ⟨sl, List.mem_cons_self _ _, ?_⟩
        rw [if_pos hc] at h
        rw [if_pos hc]
        exact h
      · refine Or.inl ?_
        rw [if_neg hc] at h
        rw [if_neg hc]
        exact h
    · exact Or.inr ⟨t, List.mem_cons_of_mem _ ht, h⟩

theorem applyWrites_not_covered :
    ∀ (ws : List RegionWrite) (arr : ℕ → ℕ → ℕ → ℕ → ℤ) (c s p q : ℕ),
      (∀ wr ∈ ws, ¬ covers wr c s p q) →
      applyWrites arr ws c s p q = arr c s p q
  | [], _, _, _, _, _, _ => rfl
  | wr :: ws, arr, c, s, p, q, h => by
    show applyWrites (applyWrite arr wr) ws c s p q = arr c s p q
    rw [applyWrites_not_covered ws (applyWrite arr wr) c s p q
      (fun u hu => h u (List.mem_cons_of_mem wr hu))]
    simp only [applyWrite, if_neg (h wr (List.mem_cons_self wr ws))]

theorem applyWrites_unique :
    ∀ (ws : List RegionWrite) (arr : ℕ → ℕ → ℕ → ℕ → ℤ) (c s p q : ℕ)
      (wr : RegionWrite),
      wr ∈ ws → covers wr c s p q →
      (∀ u ∈ ws, covers u c s p q → u = wr) →
      applyWrites arr ws c s p q = wr.src (p - wr.x) (q - wr.y)
  | [], _, _, _, _, _, _, hmem, _, _ => absurd hmem (List.not_mem_nil _)
  | u :: ws, arr, c, s, p, q, wr, hmem, hcov, huniq => by
    show applyWrites (applyWrite arr u) ws c s p q = _
    by_cases hu : covers u c s p q
    · have huwr : u = wr := huniq u (List.mem_cons_self u ws) hu
      subst huwr
      by_cases hrest : ∀ v ∈ ws, ¬ covers v c s p q
      · rw [applyWrites_not_covered ws _ c s p q hrest]
        simp only [applyWrite, if_pos hu]
      · push_neg at hrest
        obtain ⟨v, hvmem, hvcov⟩ := hrest
        have hvu : v = u := huniq v (List.mem_cons_of_mem u hvmem) hvcov
        subst hvu
        exact applyWrites_unique ws (applyWrite arr v) c s p q v hvmem hcov
          (fun t ht htcov => huniq t (List.mem_cons_of_mem _ ht) htcov)
    · have hwr : wr ∈ ws := by
        rcases List.mem_cons.mp hmem with rfl | h'
        · exact absurd hcov hu
        · exact h'
      exact applyWrites_unique ws (applyWrite arr u) c s p q wr hwr hcov
        (fun t ht htcov => huniq t (List.mem_cons_of_mem _ ht) htcov)

theorem mem_tileWrites {m ch idx x y hh ww : ℕ} {src : ℕ → ℕ → ℤ}
    {w' : RegionWrite} :
    w' ∈ tileWrites m ch idx x y hh ww src ↔
      ∃ i j, i < ceildiv hh m ∧ j < ceildiv ww m ∧
        w' = tileWrite m ch idx x y hh ww src i j := by
  simp only [tileWrites, List.mem_flatMap, List.mem_map, List.mem_range]
  constructor
  · rintro ⟨i, hi, j, hj, rfl⟩
    exact ⟨i, j, hi, hj, rfl⟩
  · rintro ⟨i, j, hi, hj, rfl⟩
    exact ⟨i, hi, j, hj, rfl⟩

theorem sliceChannelWrites_mem {m : Option ℕ} {hcan wcan idx : ℕ}
    {sl : SliceSrc} {ch : ℕ} {w' : RegionWrite}
    (h : w' ∈ sliceChannelWrites m hcan wcan idx sl ch) :
    w'.ch = ch ∧ w'.idx = idx ∧
    floordiv (hcan - sl.h) 2 ≤ w'.x ∧
    w'.x + w'.hh ≤ floordiv (hcan - sl.h) 2 + sl.h ∧
    floordiv (wcan - sl.w) 2 ≤ w'.y ∧
    w'.y + w'.ww ≤ floordiv (wcan - sl.w) 2 + sl.w := by
  have htile : ∀ mv : ℕ,
      w' ∈ tileWrites mv ch idx (floordiv (hcan - sl.h) 2)
        (floordiv (wcan - sl.w) 2) sl.h sl.w (sl.data ch) →
      w'.ch = ch ∧ w'.idx = idx ∧
      floordiv (hcan - sl.h) 2 ≤ w'.x ∧
      w'.x + w'.hh ≤ floordiv (hcan - sl.h) 2 + sl.h ∧
      floordiv (wcan - sl.w) 2 ≤ w'.y ∧
      w'.y + w'.ww ≤ floordiv (wcan - sl.w) 2 + sl.w := by
    intro mv hmem
    obtain ⟨i, j, hi, hj, rfl⟩ := mem_tileWrites.mp hmem
    have hmv : 0 < mv := by
      rcases Nat.eq_zero_or_pos mv with rfl | h'
      · rw [show ceildiv sl.h 0 = 0 from by simp [ceildiv]] at hi
        exact absurd hi (Nat.not_lt_zero i)
      · exact h'
    have him : i * mv < sl.h := (lt_ceildiv_iff hmv sl.h i).mp hi
    have hjm : j * mv < sl.w := (lt_ceildiv_iff hmv sl.w j).mp hj
    have hi1 : i * mv ≤ (i + 1) * mv := by
      have hexp : (i + 1) * mv = i * mv + mv := by ring
      omega
    have hj1 : j * mv ≤ (j + 1) * mv := by
      have hexp : (j + 1) * mv = j * mv + mv := by ring
      omega
    have hminh1 : min ((i + 1) * mv) sl.h ≤ sl.h := min_le_right _ _
    have hminh2 : i * mv ≤ min ((i + 1) * mv) sl.h :=
      le_min hi1 (le_of_lt him)
    have hminw1 : min ((j + 1) * mv) sl.w ≤ sl.w := min_le_right _ _
    have hminw2 : j * mv ≤ min ((j + 1) * mv) sl.w :=
      le_min hj1 (le_of_lt hjm)
    refine ⟨rfl, rfl, ?_, ?_, ?_, ?_⟩ <;> simp only [tileWrite] <;> omega
  rcases m with - | mv
  · rw [sliceChannelWrites, List.mem_singleton] at h
    subst h
    exact ⟨rfl, rfl, le_refl _, le_refl _, le_refl _, le_refl _⟩
  · rw [sliceChannelWrites] at h
    by_cases hsize : sl.h < mv ∧ sl.w < mv
    · rw [if_pos hsize, List.mem_singleton] at h
      subst h
      exact ⟨rfl, rfl, le_refl _, le_refl _, le_refl _, le_refl _⟩
    · rw [if_neg hsize] at h
      exact htile mv h

theorem sliceWrites_mem {m : Option ℕ} {hcan wcan idx : ℕ} {sl : SliceSrc}
    {w' : RegionWrite} (h : w' ∈ sliceWrites m hcan wcan idx sl) :
    ∃ ch, ch < 3 ∧ w' ∈ sliceChannelWrites m hcan wcan idx sl ch := by
  rw [sliceWrites] at h
  obtain ⟨ch, hch, hmem⟩ := List.mem_flatMap.mp h
  exact ⟨ch, List.mem_range.mp hch, hmem⟩

theorem level0Writes_mem {m : Option ℕ} {slices : List SliceSrc}
    {w' : RegionWrite} (h : w' ∈ level0Writes m slices) :
    ∃ idx, idx < slices.length ∧
      w' ∈ sliceWrites m (canvasH slices) (canvasW slices) idx
        (slices.getD idx default) := by
  rw [level0Writes] at h
  obtain ⟨idx, hidx, hmem⟩ := List.mem_flatMap.mp h
  exact ⟨idx, List.mem_range.mp hidx, hmem⟩

theorem level0_cover_characterize {m : Option ℕ} {slices : List SliceSrc}
    {idx : ℕ} {sl : SliceSrc} {c p q : ℕ} {w : RegionWrite}
    (hidx : slices[idx]? = some sl)
    (hw : w ∈ level0Writes m slices) (hcov : covers w c idx p q) :
    w ∈ sliceChannelWrites m (canvasH slices) (canvasW slices) idx sl c := by
  obtain ⟨idx', hlt', hw'⟩ := level0Writes_mem hw
  obtain ⟨ch', hch', hmemc⟩ := sliceWrites_mem hw'
  obtain ⟨hch, hidxeq, -⟩ := sliceChannelWrites_mem hmemc
  obtain ⟨hc1, hc2, -⟩ := hcov
  have heqidx : idx' = idx := by omega
  subst heqidx
  have hslget : slices.getD idx' default = sl := by
    rw [List.getD_eq_getElem?_getD, hidx]
    rfl
  rw [hslget] at hmemc
  have heqch : ch' = c := by omega
  subst heqch
  exact hmemc

theorem sliceChannelWrites_subset_level0 {m : Option ℕ}
    {slices : List SliceSrc} {idx : ℕ} {sl : SliceSrc} {c : ℕ}
    {w : RegionWrite} (hidx : slices[idx]? = some sl) (hc : c < 3)
    (hw : w ∈ sliceChannelWrites m (canvasH slices) (canvasW slices) idx sl c) :
    w ∈ level0Writes m slices := by
  obtain ⟨hlt, -⟩ := List.getElem?_eq_some.mp hidx
  have hslget : slices.getD idx default = sl := by
    rw [List.getD_eq_getElem?_getD, hidx]
    rfl
  refine List.mem_flatMap.mpr ⟨idx, List.mem_range.mpr hlt, ?_⟩
  refine List.mem_flatMap.mpr ⟨c, List.mem_range.mpr hc, ?_⟩
  rw [hslget]
  exact hw

theorem sliceChannelWrites_value (m : Option ℕ) (hcanv wcanv idx : ℕ)
    (sl : SliceSrc) (c p q : ℕ)
    (hm : ∀ v, m = some v → 0 < v)
    (hp1 : floordiv (hcanv - sl.h) 2 ≤ p)
    (hp2 : p < floordiv (hcanv - sl.h) 2 + sl.h)
    (hq1 : floordiv (wcanv - sl.w) 2 ≤ q)
    (hq2 : q < floordiv (wcanv - sl.w) 2 + sl.w) :
    ∃ wr ∈ sliceChannelWrites m hcanv wcanv idx sl c,
      covers wr c idx p q ∧
      wr.src (p - wr.x) (q - wr.y) =
        sl.data c (p - floordiv (hcanv - sl.h) 2)
          (q - floordiv (wcanv - sl.w) 2) ∧
      ∀ u ∈ sliceChannelWrites m hcanv wcanv idx sl c,
        covers u c idx p q → u = wr := by
  rcases m with - | mv
  · refine ⟨_, List.mem_singleton.mpr rfl,
      ⟨rfl, rfl, hp1, hp2, hq1, hq2⟩, rfl, ?_⟩
    intro u hu _
    exact List.mem_singleton.mp hu
  · by_cases hsize : sl.h < mv ∧ sl.w < mv
    · have hmemw : (⟨c, idx, floordiv (hcanv - sl.h) 2,
          floordiv (wcanv - sl.w) 2, sl.h, sl.w, sl.data c⟩ : RegionWrite) ∈
          sliceChannelWrites (some mv) hcanv wcanv idx sl c := by
        rw [sliceChannelWrites, if_pos hsize]
        exact List.mem_singleton.mpr rfl
      refine ⟨_, hmemw, ⟨rfl, rfl, hp1, hp2, hq1, hq2⟩, rfl, ?_⟩
      intro u hu _
      rw [sliceChannelWrites, if_pos hsize, List.mem_singleton] at hu
      exact hu
    · have hmv : 0 < mv := hm mv rfl
      set x0 := floordiv (hcanv - sl.h) 2 with hx0def
      set y0 := floordiv (wcanv - sl.w) 2 with hy0def
      have hrp : p - x0 < sl.h := by omega
      have hrq : q - y0 < sl.w := by omega
      obtain ⟨hi0, hi0lo, hi0hi⟩ := tile_mem mv hmv sl.h (p - x0) hrp
      obtain ⟨hj0, hj0lo, hj0hi⟩ := tile_mem mv hmv sl.w (q - y0) hrq
      set i0 := (p - x0) / mv with hi0def
      set j0 := (q - y0) / mv with hj0def
      have hi0lo' : i0 * mv ≤ p - x0 := hi0lo
      have hi0hi' : p - x0 < min ((i0 + 1) * mv) sl.h := hi0hi
      have hj0lo' : j0 * mv ≤ q - y0 := hj0lo
      have hj0hi' : q - y0 < min ((j0 + 1) * mv) sl.w := hj0hi
      have hi1 : i0 * mv ≤ (i0 + 1) * mv := by
        have hexp : (i0 + 1) * mv = i0 * mv + mv := by ring
        omega
      have hj1 : j0 * mv ≤ (j0 + 1) * mv := by
        have hexp : (j0 + 1) * mv = j0 * mv + mv := by ring
        omega
      have himlt : i0 * mv < sl.h := (lt_ceildiv_iff hmv sl.h i0).mp hi0
      have hjmlt : j0 * mv < sl.w := (lt_ceildiv_iff hmv sl.w j0).mp hj0
      have hminh2 : i0 * mv ≤ min ((i0 + 1) * mv) sl.h :=
        le_min hi1 (le_of_lt himlt)
      have hminw2 : j0 * mv ≤ min ((j0 + 1) * mv) sl.w :=
        le_min hj1 (le_of_lt hjmlt)
      have hmemw : tileWrite mv c idx x0 y0 sl.h sl.w (sl.data c) i0 j0 ∈
          sliceChannelWrites (some mv) hcanv wcanv idx sl c := by
        rw [sliceChannelWrites, if_neg hsize]
        exact mem_tileWrites.mpr ⟨i0, j0, hi0, hj0, rfl⟩
      have hcover :
          covers (tileWrite mv c idx x0 y0 sl.h sl.w (sl.data c) i0 j0)
            c idx p q := by
        refine ⟨rfl, rfl, ?_, ?_, ?_, ?_⟩
        · show x0 + i0 * mv ≤ p
          omega
        · show p < x0 + i0 * mv + (min ((i0 + 1) * mv) sl.h - i0 * mv)
          omega
        · show y0 + j0 * mv ≤ q
          omega
        · show q < y0 + j0 * mv + (min ((j0 + 1) * mv) sl.w - j0 * mv)
          omega
      have hval :
          (tileWrite mv c idx x0 y0 sl.h sl.w (sl.data c) i0 j0).src
            (p - (tileWrite mv c idx x0 y0 sl.h sl.w (sl.data c) i0 j0).x)
            (q - (tileWrite mv c idx x0 y0 sl.h sl.w (sl.data c) i0 j0).y) =
          sl.data c (p - x0) (q - y0) := by
        show sl.data c (i0 * mv + (p - (x0 + i0 * mv)))
            (j0 * mv + (q - (y0 + j0 * mv))) = sl.data c (p - x0) (q - y0)
        have e1 : i0 * mv + (p - (x0 + i0 * mv)) = p - x0 := by omega
        have e2 : j0 * mv + (q - (y0 + j0 * mv)) = q - y0 := by omega
        rw [e1, e2]
      refine ⟨_, hmemw, hcover, hval, ?_⟩
      intro u hu hucov
      rw [sliceChannelWrites, if_neg hsize] at hu
      obtain ⟨i', j', hi', hj', rfl⟩ := mem_tileWrites.mp hu
      obtain ⟨-, -, hux1, hux2, huy1, huy2⟩ := hucov
      have hux1' : x0 + i' * mv ≤ p := hux1
      have hux2' : p < x0 + i' * mv + (min ((i' + 1) * mv) sl.h - i' * mv) :=
        hux2
      have huy1' : y0 + j' * mv ≤ q := huy1
      have huy2' : q < y0 + j' * mv + (min ((j' + 1) * mv) sl.w - j' * mv) :=
        huy2
      have hi'm : i' * mv < sl.h := (lt_ceildiv_iff hmv sl.h i').mp hi'
      have hj'm : j' * mv < sl.w := (lt_ceildiv_iff hmv sl.w j').mp hj'
      have hi'1 : i' * mv ≤ (i' + 1) * mv := by
        have hexp : (i' + 1) * mv = i' * mv + mv := by ring
        omega
      have hj'1 : j' * mv ≤ (j' + 1) * mv := by
        have hexp : (j' + 1) * mv = j' * mv + mv := by ring
        omega
      have hminh2' : i' * mv ≤ min ((i' + 1) * mv) sl.h :=
        le_min hi'1 (le_of_lt hi'm)
      have hminw2' : j' * mv ≤ min ((j' + 1) * mv) sl.w :=
        le_min hj'1 (le_of_lt hj'm)
      have hloi : tileLo mv i' ≤ p - x0 := by
        show i' * mv ≤ p - x0
        omega
      have hhii : p - x0 < tileHi mv sl.h i' := by
        show p - x0 < min ((i' + 1) * mv) sl.h
        omega
      have hloj : tileLo mv j' ≤ q - y0 := by
        show j' * mv ≤ q - y0
        omega
      have hhij : q - y0 < tileHi mv sl.w j' := by
        show q - y0 < min ((j' + 1) * mv) sl.w
        omega
      have hieq : i' = i0 := tile_unique mv hmv sl.h i' (p - x0) hloi hhii
      have hjeq : j' = j0 := tile_unique mv hmv sl.w j' (q - y0) hloj hhij
      rw [hieq, hjeq]

/-- C7: the level-0 canvas extent on each spatial axis is the maximum of
the input slices' extents on that axis; each slice is copied (directly or
through `max_load`-bounded sub-tiles) at the per-axis centering offset
`floordiv(canvas_extent - slice_extent, 2)`, so every element inside the
centered footprint of its slice plane equals the slice's pixel there, and
every element outside the footprint equals the fill value 0. -/
theorem multislice_level0_compositing (m : Option ℕ)
    (slices : List SliceSrc) (idx : ℕ) (sl : SliceSrc) (c p q : ℕ)
    (hidx : slices[idx]? = some sl) (hc : c < 3)
    (hm : ∀ v, m = some v → 0 < v) :
    (sl.h ≤ canvasH slices ∧ sl.w ≤ canvasW slices ∧
      (∃ sa ∈ slices, canvasH slices = sa.h) ∧
      (∃ sb ∈ slices, canvasW slices = sb.w)) ∧
    (floordiv (canvasH slices - sl.h) 2 ≤ p →
      p < floordiv (canvasH slices - sl.h) 2 + sl.h →
      floordiv (canvasW slices - sl.w) 2 ≤ q →
      q < floordiv (canvasW slices - sl.w) 2 + sl.w →
      buildLevel0 m slices c idx p q =
        sl.data c (p - floordiv (canvasH slices - sl.h) 2)
          (q - floordiv (canvasW slices - sl.w) 2)) ∧
    ((p < floordiv (canvasH slices - sl.h) 2 ∨
      floordiv (canvasH slices - sl.h) 2 + sl.h ≤ p ∨
      q < floordiv (canvasW slices - sl.w) 2 ∨
      floordiv (canvasW slices - sl.w) 2 + sl.w ≤ q) →
      buildLevel0 m slices c idx p q = 0) := by
  obtain ⟨hlen, hget⟩ := List.getElem?_eq_some.mp hidx
  have hmem : sl ∈ slices := hget ▸ List.getElem_mem hlen
  have hballH : ∀ t ∈ slices, t.h ≤ canvasH slices :=
    (foldMax_le SliceSrc.h slices 0).2
  have hballW : ∀ t ∈ slices, t.w ≤ canvasW slices :=
    (foldMax_le SliceSrc.w slices 0).2
  refine ⟨⟨hballH sl hmem, hballW sl hmem, ?_, ?_⟩, ?_, ?_⟩
  · rcases foldMax_mem SliceSrc.h slices 0 with h0 | h1
    · have hH0 : canvasH slices = 0 := h0
      have h2 := hballH sl hmem
      exact ⟨sl, hmem, by omega⟩
    · exact h1
  · rcases foldMax_mem SliceSrc.w slices 0 with h0 | h1
    · have hW0 : canvasW slices = 0 := h0
      have h2 := hballW sl hmem
      exact ⟨sl, hmem, by omega⟩
    · exact h1
  · intro hp1 hp2 hq1 hq2
    obtain ⟨wr, hwmem, hwcov, hwval, hwuniq⟩ :=
      sliceChannelWrites_value m (canvasH slices) (canvasW slices) idx sl c
        p q hm hp1 hp2 hq1 hq2
    have hmain :
        applyWrites (fun _ _ _ _ => 0) (level0Writes m slices) c idx p q =
          wr.src (p - wr.x) (q - wr.y) :=
      applyWrites_unique (level0Writes m slices) _ c idx p q wr
        (sliceChannelWrites_subset_level0 hidx hc hwmem) hwcov
        (fun u hu hucov =>
          hwuniq u (level0_cover_characterize hidx hu hucov) hucov)
    show applyWrites (fun _ _ _ _ => 0) (level0Writes m slices) c idx p q = _
    rw [hmain, hwval]
  · intro hout
    show applyWrites (fun _ _ _ _ => 0) (level0Writes m slices) c idx p q = 0
    apply applyWrites_not_covered
    intro wr hwr hcov
    have hmemc := level0_cover_characterize hidx hwr hcov
    obtain ⟨-, -, hx1, hx2, hy1, hy2⟩ := sliceChannelWrites_mem hmemc
    obtain ⟨-, -, hcx1, hcx2, hcy1, hcy2⟩ := hcov
    omega

/-- The two slices of the spec's compositing example: 10 × 20 and
14 × 16. -/
def sliceA : SliceSrc := ⟨10, 20, fun c p q => (c : ℤ) + 100 * p + q⟩

def sliceB : SliceSrc := ⟨14, 16, fun _ _ _ => 5⟩

/-- Witness for C7 at the spec's concrete example: canvas 14 × 20, offsets
(2, 0) for the first slice; position (2, 0) of plane 0 is in-footprint. -/
theorem multislice_level0_compositing_witness :
    (([sliceA, sliceB] : List SliceSrc)[0]? = some sliceA ∧ 0 < 3 ∧
      (∀ v, (some 8 : Option ℕ) = some v → 0 < v)) ∧
    ((sliceA.h ≤ canvasH [sliceA, sliceB] ∧
      sliceA.w ≤ canvasW [sliceA, sliceB] ∧
      (∃ sa ∈ [sliceA, sliceB], canvasH [sliceA, sliceB] = sa.h) ∧
      (∃ sb ∈ [sliceA, sliceB], canvasW [sliceA, sliceB] = sb.w)) ∧
    (floordiv (canvasH [sliceA, sliceB] - sliceA.h) 2 ≤ 2 →
      2 < floordiv (canvasH [sliceA, sliceB] - sliceA.h) 2 + sliceA.h →
      floordiv (canvasW [sliceA, sliceB] - sliceA.w) 2 ≤ 0 →
      0 < floordiv (canvasW [sliceA, sliceB] - sliceA.w) 2 + sliceA.w →
      buildLevel0 (some 8) [sliceA, sliceB] 0 0 2 0 =
        sliceA.data 0 (2 - floordiv (canvasH [sliceA, sliceB] - sliceA.h) 2)
          (0 - floordiv (canvasW [sliceA, sliceB] - sliceA.w) 2)) ∧
    ((2 < floordiv (canvasH [sliceA, sliceB] - sliceA.h) 2 ∨
      floordiv (canvasH [sliceA, sliceB] - sliceA.h) 2 + sliceA.h ≤ 2 ∨
      0 < floordiv (canvasW [sliceA, sliceB] - sliceA.w) 2 ∨
      floordiv (canvasW [sliceA, sliceB] - sliceA.w) 2 + sliceA.w ≤ 0) →
      buildLevel0 (some 8) [sliceA, sliceB] 0 0 2 0 = 0)) :=
  ⟨⟨rfl, by decide, fun v hv => by
      cases hv
      decide⟩,
    multislice_level0_compositing (some 8) [sliceA, sliceB] 0 sliceA 0 2 0
      rfl (by decide) (fun v hv => by
        cases hv
        decide)⟩

end LincConvert
